import Mathlib

/-!
Shallow embedding of the decision-tree repository (files `id3.py` and
`decision_tree.py`) and verification of its specification claims.

Modelling conventions, used consistently below:

* Python lists are Lean `List`s; a data entry (`data`) is a pair of a
  feature mapping and a label; feature mappings (Python dicts from
  feature name to value) are association lists queried with
  `List.lookup`; names, values and labels are `String`s, as in the
  repository's test driver.
* Python `set`s are modelled as duplicate-free `List`s built in first
  insertion order by `py_set` (CPython iterates sets in an incidental
  hash order; the embedding fixes the insertion order instead, which is
  one deterministic choice of that incidental order).
* Python `min(..., key=k)` / `max(..., key=k)` on a non-empty sequence
  return the first element attaining the optimum; they are embedded as
  the folds `py_min` / `py_max` over a head element and a tail.
* Fallible Python code (raising `KeyError`, `IndexError`,
  `AttributeError`, `ZeroDivisionError`) is embedded in `Except PyError`.
* Floating point arithmetic of `id3.py` is embedded as exact real
  arithmetic over `ℝ`, with `Real.logb 2` for `math.log(p, 2)`.
-/

/-- Errors the Python runtime can raise in the embedded fragments. -/
inductive PyError : Type where
  | keyError
  | indexError
  | attributeError
  | zeroDivisionError
deriving DecidableEq

/-- A feature mapping: Python dict from feature name to feature value. -/
abbrev FMap : Type := List (String × String)

/-- A data entry: 2-tuple of a feature mapping and a label
(`decision_tree.py`, docstring of `train`). -/
abbrev DataEntry : Type := FMap × String

/-- A dataset: ordered sequence of data entries. -/
abbrev Dataset : Type := List DataEntry

/-- Python set building in first insertion order: add an element to the
accumulator unless already present. -/
def add_unique {α : Type} [DecidableEq α] (seen : List α) (x : α) : List α :=
  if x ∈ seen then seen else seen ++ [x]

/-- The list of distinct elements of `l` in first insertion order; the
embedding of iteratively adding every element of `l` to a Python set. -/
def py_set {α : Type} [DecidableEq α] (l : List α) : List α :=
  l.foldl add_unique []

/-- Python `min(xs, key)` on the non-empty sequence `x :: xs`: fold that
replaces the current best exactly when the new key is strictly smaller,
so the first element attaining the minimum wins. -/
def py_min {α β : Type} [LinearOrder β] (key : α → β) (x : α) (xs : List α) : α :=
  xs.foldl (fun best y => if key y < key best then y else best) x

/-- Python `max(xs, key)` on the non-empty sequence `x :: xs`: fold that
replaces the current best exactly when the new key is strictly larger,
so the first element attaining the maximum wins. -/
def py_max {α β : Type} [LinearOrder β] (key : α → β) (x : α) (xs : List α) : α :=
  xs.foldl (fun best y => if key best < key y then y else best) x

/-- `Feature` from `decision_tree.py`: a feature name together with the
list of its possible values (a Python set, embedded per `py_set`). -/
structure Feature where
  name : String
  values : List String
deriving DecidableEq

/-- `freq_dist` from `id3.py`: frequency distribution of a list of items,
as the association of each distinct item with its proportion.  For the
empty list the iteration set `set(items)` is empty, so the division by
`num = 0` is never evaluated and the result is the empty distribution. -/
noncomputable def freq_dist (items : List String) : List (String × ℝ) :=
  (py_set items).map (fun item => (item, (items.count item : ℝ) / (items.length : ℝ)))

/-- `entropy` from `id3.py`: `-sum(p * log(p, 2))` over the values of the
distribution. -/
noncomputable def entropy (labels : List (String × ℝ)) : ℝ :=
  -((labels.map (fun p => p.2 * Real.logb 2 p.2)).sum)

/-- The body of the feature loop of `id3` in `id3.py`: the weighted
post-split entropy of `feature` on `dataset`, accumulating over the
feature's possible values the entropy of the filtered subset's label
distribution weighted by `len(filtered) / len(dataset)`. -/
noncomputable def feature_entropy (feature : Feature) (dataset : Dataset) : ℝ :=
  (feature.values.map (fun value =>
    let filtered_dataset := dataset.filter (fun data => data.1.lookup feature.name == some value)
    let feature_labels := filtered_dataset.map (fun data => data.2)
    entropy (freq_dist feature_labels) * (filtered_dataset.length : ℝ) /
      (dataset.length : ℝ))).sum

/-- `id3` from `id3.py`: return the feature minimizing `feature_entropy`,
i.e. `min(feature_entropy_list, key=lambda tup: tup[1])[0]`.  Python
`min` raises on an empty sequence, embedded as `none`; `self._features`
is a Python set, embedded as a list in a fixed iteration order. -/
noncomputable def id3 (features : List Feature) (dataset : Dataset) : Option Feature :=
  match features with
  | [] => none
  | f :: fs => some (py_min (fun feature => feature_entropy feature dataset) f fs)

/-- Node of the built decision tree: the chosen feature's name and, per
feature value, the edge holding its majority label and optional
destination subtree (`DecisionTreeNode` / `DecisionTreeEdge` of
`decision_tree.py`; `_edges` is a dict built by one `add_edge` per
value of the partition, embedded as an association list in that
insertion order). -/
inductive DTree : Type where
  | node (name : String) (edges : List (String × String × Option DTree))

/-- The feature name a tree node decides on. -/
def DTree.name : DTree → String
  | .node n _ => n

/-- The edge association list of a tree node. -/
def DTree.edges : DTree → List (String × String × Option DTree)
  | .node _ es => es

/-- `_build_labels` from `decision_tree.py`: the set of labels occurring
in the dataset. -/
def build_labels (dataset : Dataset) : List String :=
  py_set (dataset.map (fun data => data.2))

/-- The value set of one feature in `_build_features`: all values
observed for `name` across the entire dataset.  (`data[0][feature_name]`
assumes schema uniformity; an entry lacking the key would raise
`KeyError` in Python, while the embedding skips it.) -/
def build_values (name : String) (dataset : Dataset) : List String :=
  py_set (dataset.filterMap (fun data => data.1.lookup name))

/-- `_build_features` from `decision_tree.py`: one `Feature` per distinct
key of the first entry's mapping, with values from the entire dataset.
On the empty dataset `dataset[0]` raises `IndexError`. -/
def build_features (dataset : Dataset) : Except PyError (List Feature) :=
  match dataset with
  | [] => .error .indexError
  | first :: _ =>
    .ok ((py_set (first.1.map Prod.fst)).map
      (fun feature_name => { name := feature_name, values := build_values feature_name dataset }))

/-- The per-value bucket of `_partition_dataset`: the Python dict
`{"dataset": ..., "label": ...}`. -/
structure Bucket where
  ds : Dataset
  label : String
deriving DecidableEq

/-- The count in `_partition_dataset`'s `label_count`:
`len([data for data in val_dataset if data[1] == label])`. -/
def count_label (label : String) (val_dataset : Dataset) : Nat :=
  (val_dataset.filter (fun data => data.2 == label)).length

/-- The label assignment of `_partition_dataset`: the first label of
`labels` attaining the maximal `count_label` in `val_dataset`, per
Python `max(label_count, key=lambda tup: tup[1])[0]`.  For an empty
label list Python `max` would raise; the embedding returns the initial
placeholder `""` that the code stores before the `max` (unreachable
from `train` on a non-empty dataset, whose global label set is
non-empty). -/
def majority_label (labels : List String) (val_dataset : Dataset) : String :=
  match labels.map (fun label => (label, count_label label val_dataset)) with
  | [] => ""
  | c :: cs => (py_max (fun tup => tup.2) c cs).1

/-- `_partition_dataset` from `decision_tree.py`: for each possible value
of `feature` (in order), the bucket of entries of `dataset` taking that
value, with the bucket's majority label over the global `labels`.
Grouping by `data[0][feature.name]` is embedded as one filter per value;
the two are equal whenever every entry's value for the feature lies in
`feature.values`, which holds on every dataset `_build_tree` passes in. -/
def partition_dataset (labels : List String) (feature : Feature) (dataset : Dataset) :
    List (String × Bucket) :=
  feature.values.map (fun value =>
    let val_dataset := dataset.filter (fun data => data.1.lookup feature.name == some value)
    (value, { ds := val_dataset, label := majority_label labels val_dataset }))

/-- The expression `len(partition[value])` evaluated by `_build_tree`'s
`build_subtrees` check: `partition[value]` is the two-key dict
`{"dataset": ..., "label": ...}`, so its Python `len` is always `2`
(not the length of the bucket's dataset). -/
def bucket_py_len (_bucket : Bucket) : Nat := 2

/-- The `build_subtrees` condition of `_build_tree`, exactly as coded:
`sum([1 if len(partition[value]) > 0 else 0 for value in partition.keys()]) > 1`. -/
def build_subtrees_flag (labels : List String) (feature : Feature) (dataset : Dataset) : Prop :=
  ((partition_dataset labels feature dataset).map
    (fun p => if 0 < bucket_py_len p.2 then 1 else 0)).sum > 1

instance (labels : List String) (feature : Feature) (dataset : Dataset) :
    Decidable (build_subtrees_flag labels feature dataset) := by
  unfold build_subtrees_flag; infer_instance

/-- The type of the pluggable heuristic of `DecisionTree.__init__`
(default `id3`). -/
abbrev Heuristic : Type := List Feature → Dataset → Option Feature

/-- `_build_tree` from `decision_tree.py`.  The extra `fuel` argument
only bounds the recursion depth so the definition is structural: every
recursive call removes the chosen feature from `features`, so any
`fuel ≥ features.length` (as passed by `train`) makes the fuel-zero
branch reachable only with `features = []`, where it returns `none`
exactly as the `len(features) == 0` guard does.  A heuristic returning
`none` models Python `min` raising on an empty sequence, and a
heuristic choosing a feature outside `features` models
`unused_features.remove(feature)` raising `KeyError`; neither happens
for `id3` on the guarded non-empty inputs. -/
def build_tree (h : Heuristic) (labels : List String) :
    Nat → List Feature → Dataset → Option DTree
  | 0, _, _ => none
  | fuel + 1, features, dataset =>
    if features.length = 0 ∨ dataset.length = 0 then none
    else
      match h features dataset with
      | none => none
      | some feature =>
        if feature ∈ features then
          let unused_features := features.erase feature
          some (DTree.node feature.name
            ((partition_dataset labels feature dataset).map (fun p =>
              (p.1, p.2.label,
                if build_subtrees_flag labels feature dataset then
                  build_tree h labels fuel unused_features p.2.ds
                else none))))
        else none

/-- `train` from `decision_tree.py`: build the label set, the feature
descriptions (raising `IndexError` on an empty dataset), then the tree
from the root.  Returns the trained state `(labels, features, root)`. -/
def train (h : Heuristic) (dataset : Dataset) :
    Except PyError (List String × List Feature × Option DTree) :=
  let labels := build_labels dataset
  match build_features dataset with
  | .error e => .error e
  | .ok features =>
    .ok (labels, features, build_tree h labels features.length features dataset)

/-- `classify` from `decision_tree.py`, from a given node downwards.
`data[node.name]` raises `KeyError` when the mapping lacks the node's
feature name.  The while loop descends while the edge for the observed
value exists and has a destination; on exit it returns the edge's label
if the edge exists and `None` (here `Option.none`) otherwise. -/
def classify (t : DTree) (data : FMap) : Except PyError (Option String) :=
  match t with
  | DTree.node n es =>
    match data.lookup n with
    | none => .error .keyError
    | some value =>
      match hlk : es.lookup value with
      | none => .ok none
      | some (label, none) => .ok (some label)
      | some (label', some dest) => classify dest data
termination_by sizeOf t
decreasing_by
  rename_i es
  have hmem : (value, (label', some dest)) ∈ es := by
    obtain ⟨l₁, l₂, rfl, -⟩ := List.lookup_eq_some_iff.mp hlk
    exact List.mem_append.mpr (Or.inr (List.mem_cons_self _ _))
  have h1 : sizeOf (value, (label', some dest)) < sizeOf es := List.sizeOf_lt_of_mem hmem
  simp only [Prod.mk.sizeOf_spec, Option.some.sizeOf_spec] at h1
  simp only [DTree.node.sizeOf_spec]
  omega

/-- `DecisionTree.classify` applied through the stored root: if training
left no root (`self._root is None`), `node.edge` raises
`AttributeError`. -/
def dt_classify (root : Option DTree) (data : FMap) : Except PyError (Option String) :=
  match root with
  | none => .error .attributeError
  | some t => classify t data

/-- The counting loop of `evaluate`: classify each entry, incrementing
`correct` on a match with the true label and `nones` on the
unclassifiable outcome. -/
def eval_loop (root : Option DTree) : Dataset → Nat → Nat → Except PyError (Nat × Nat)
  | [], correct, nones => .ok (correct, nones)
  | (feature, label) :: ds, correct, nones =>
    match dt_classify root feature with
    | .error e => .error e
    | .ok classification =>
      if classification = some label then eval_loop root ds (correct + 1) nones
      else if classification = none then eval_loop root ds correct (nones + 1)
      else eval_loop root ds correct nones

/-- `evaluate` from `decision_tree.py`: run the counting loop, then
return `(correct / len(dataset), nones / len(dataset))`; the division
raises `ZeroDivisionError` on an empty dataset.  The two integer
divisions are exact, embedded in `ℚ`. -/
def evaluate (root : Option DTree) (dataset : Dataset) : Except PyError (ℚ × ℚ) :=
  match eval_loop root dataset 0 0 with
  | .error e => .error e
  | .ok (correct, nones) =>
    if dataset.length = 0 then .error .zeroDivisionError
    else .ok ((correct : ℚ) / (dataset.length : ℚ), (nones : ℚ) / (dataset.length : ℚ))

/-! ### Properties of the Python `min` / `max` folds -/

theorem py_min_mem {α β : Type} [LinearOrder β] (key : α → β) (x : α) (xs : List α) :
    py_min key x xs ∈ x :: xs := by
  induction xs generalizing x with
  | nil => exact List.mem_cons_self x []
  | cons y ys ih =>
    have hstep : py_min key x (y :: ys) = py_min key (if key y < key x then y else x) ys := rfl
    rw [hstep]
    rcases List.mem_cons.mp (ih (if key y < key x then y else x)) with h1 | h1
    · rw [h1]
      split
      · exact List.mem_cons.mpr (Or.inr (List.mem_cons_self _ _))
      · exact List.mem_cons_self _ _
    · exact List.mem_cons.mpr (Or.inr (List.mem_cons.mpr (Or.inr h1)))

theorem py_min_le {α β : Type} [LinearOrder β] (key : α → β) (x : α) (xs : List α) :
    ∀ g ∈ x :: xs, key (py_min key x xs) ≤ key g := by
  induction xs generalizing x with
  | nil =>
    intro g hg
    rcases List.mem_cons.mp hg with h | h
    · rw [h]; exact le_refl _
    · exact absurd h (List.not_mem_nil g)
  | cons y ys ih =>
    intro g hg
    have hstep : py_min key x (y :: ys) = py_min key (if key y < key x then y else x) ys := rfl
    have hz_le_x : key (if key y < key x then y else x) ≤ key x := by
      split
      · next hlt => exact le_of_lt hlt
      · exact le_refl _
    have hz_le_y : key (if key y < key x then y else x) ≤ key y := by
      split
      · exact le_refl _
      · next hlt => exact le_of_not_lt hlt
    have hmin_le_z : key (py_min key (if key y < key x then y else x) ys) ≤
        key (if key y < key x then y else x) :=
      ih _ _ (List.mem_cons_self _ _)
    rcases List.mem_cons.mp hg with h | h
    · rw [hstep, h]; exact le_trans hmin_le_z hz_le_x
    · rcases List.mem_cons.mp h with h2 | h2
      · rw [hstep, h2]; exact le_trans hmin_le_z hz_le_y
      · rw [hstep]; exact ih _ _ (List.mem_cons.mpr (Or.inr h2))

theorem py_max_mem {α β : Type} [LinearOrder β] (key : α → β) (x : α) (xs : List α) :
    py_max key x xs ∈ x :: xs := by
  induction xs generalizing x with
  | nil => exact List.mem_cons_self x []
  | cons y ys ih =>
    have hstep : py_max key x (y :: ys) = py_max key (if key x < key y then y else x) ys := rfl
    rw [hstep]
    rcases List.mem_cons.mp (ih (if key x < key y then y else x)) with h1 | h1
    · rw [h1]
      split
      · exact List.mem_cons.mpr (Or.inr (List.mem_cons_self _ _))
      · exact List.mem_cons_self _ _
    · exact List.mem_cons.mpr (Or.inr (List.mem_cons.mpr (Or.inr h1)))

theorem py_max_ge {α β : Type} [LinearOrder β] (key : α → β) (x : α) (xs : List α) :
    ∀ g ∈ x :: xs, key g ≤ key (py_max key x xs) := by
  induction xs generalizing x with
  | nil =>
    intro g hg
    rcases List.mem_cons.mp hg with h | h
    · rw [h]; exact le_refl _
    · exact absurd h (List.not_mem_nil g)
  | cons y ys ih =>
    intro g hg
    have hstep : py_max key x (y :: ys) = py_max key (if key x < key y then y else x) ys := rfl
    have hx_le_z : key x ≤ key (if key x < key y then y else x) := by
      split
      · next hlt => exact le_of_lt hlt
      · exact le_refl _
    have hy_le_z : key y ≤ key (if key x < key y then y else x) := by
      split
      · exact le_refl _
      · next hlt => exact le_of_not_lt hlt
    have hz_le_max : key (if key x < key y then y else x) ≤
        key (py_max key (if key x < key y then y else x) ys) :=
      ih _ _ (List.mem_cons_self _ _)
    rcases List.mem_cons.mp hg with h | h
    · rw [hstep, h]; exact le_trans hx_le_z hz_le_max
    · rcases List.mem_cons.mp h with h2 | h2
      · rw [hstep, h2]; exact le_trans hy_le_z hz_le_max
      · rw [hstep]; exact ih _ _ (List.mem_cons.mpr (Or.inr h2))

/-! ### Properties of `py_set` -/

theorem add_unique_mem {α : Type} [DecidableEq α] (seen : List α) (x a : α) :
    a ∈ add_unique seen x ↔ a ∈ seen ∨ a = x := by
  unfold add_unique
  split
  · next hx =>
    constructor
    · exact fun h => Or.inl h
    · rintro (h | rfl)
      · exact h
      · exact hx
  · simp [List.mem_append]

theorem foldl_add_unique_mem {α : Type} [DecidableEq α] (l : List α) (acc : List α) (a : α) :
    a ∈ l.foldl add_unique acc ↔ a ∈ acc ∨ a ∈ l := by
  induction l generalizing acc with
  | nil => simp
  | cons x xs ih =>
    rw [List.foldl_cons, ih, add_unique_mem]
    constructor
    · rintro ((h | rfl) | h)
      · exact Or.inl h
      · exact Or.inr (List.mem_cons_self _ _)
      · exact Or.inr (List.mem_cons.mpr (Or.inr h))
    · rintro (h | h)
      · exact Or.inl (Or.inl h)
      · rcases List.mem_cons.mp h with rfl | h2
        · exact Or.inl (Or.inr rfl)
        · exact Or.inr h2

theorem py_set_mem {α : Type} [DecidableEq α] (l : List α) (a : α) :
    a ∈ py_set l ↔ a ∈ l := by
  unfold py_set
  rw [foldl_add_unique_mem]
  simp

theorem add_unique_nodup {α : Type} [DecidableEq α] (seen : List α) (x : α)
    (h : seen.Nodup) : (add_unique seen x).Nodup := by
  unfold add_unique
  split
  · exact h
  · next hx => simp [List.nodup_append, h, hx]

theorem py_set_nodup {α : Type} [DecidableEq α] (l : List α) : (py_set l).Nodup := by
  have key : ∀ (l acc : List α), acc.Nodup → (l.foldl add_unique acc).Nodup := by
    intro l
    induction l with
    | nil => intro acc h; exact h
    | cons x xs ih => intro acc h; exact ih _ (add_unique_nodup acc x h)
  exact key l [] List.nodup_nil

theorem py_set_ne_nil {α : Type} [DecidableEq α] (l : List α) (h : l ≠ []) :
    py_set l ≠ [] := by
  match l, h with
  | x :: xs, _ =>
    exact List.ne_nil_of_mem ((py_set_mem (x :: xs) x).mpr (List.mem_cons_self x xs))

theorem py_set_perm_dedup {α : Type} [DecidableEq α] (l : List α) :
    (py_set l).Perm l.dedup := by
  rw [List.perm_ext_iff_of_nodup (py_set_nodup l) (List.nodup_dedup l)]
  intro a
  rw [py_set_mem, List.mem_dedup]

theorem sum_count_py_set {α : Type} [DecidableEq α] (l : List α) :
    ((py_set l).map (fun x => l.count x)).sum = l.length := by
  have hperm : ((py_set l).map (fun x => l.count x)).Perm
      (l.dedup.map (fun x => l.count x)) := (py_set_perm_dedup l).map _
  rw [hperm.sum_eq]
  exact List.sum_map_count_dedup_eq_length l

/-! ### Claim C1: id3 returns a feature of minimal weighted entropy -/

theorem id3_selects_within (fs : List Feature) (ds : Dataset) (f : Feature)
    (h : id3 fs ds = some f) : f ∈ fs := by
  match fs, h with
  | g :: gs, h =>
    have : py_min (fun feature => feature_entropy feature ds) g gs = f := by
      simpa [id3] using h
    rw [← this]
    exact py_min_mem _ g gs

/-- C1: for every non-empty candidate feature list and non-empty dataset,
`id3` returns a candidate whose weighted post-split entropy
(`feature_entropy`, the sum over the feature's values of the filtered
subset's Shannon entropy weighted by `|filtered| / |dataset|`) is less
than or equal to that of every other candidate. -/
theorem id3_min_weighted_entropy (features : List Feature) (dataset : Dataset)
    (hfs : features ≠ []) (_hds : dataset ≠ []) :
    ∃ f, id3 features dataset = some f ∧ f ∈ features ∧
      ∀ g ∈ features, feature_entropy f dataset ≤ feature_entropy g dataset := by
  match features, hfs with
  | f :: fs, _ =>
    exact ⟨py_min (fun feature => feature_entropy feature dataset) f fs, rfl,
      py_min_mem (fun feature => feature_entropy feature dataset) f fs,
      py_min_le (fun feature => feature_entropy feature dataset) f fs⟩

theorem id3_min_weighted_entropy_witness :
    (([⟨"x", ["a", "b"]⟩] : List Feature) ≠ [] ∧ ([([("x", "a")], "yes")] : Dataset) ≠ []) ∧
    ∃ f, id3 [⟨"x", ["a", "b"]⟩] [([("x", "a")], "yes")] = some f ∧
      f ∈ [(⟨"x", ["a", "b"]⟩ : Feature)] ∧ ∀ g ∈ [(⟨"x", ["a", "b"]⟩ : Feature)],
        feature_entropy f [([("x", "a")], "yes")] ≤ feature_entropy g [([("x", "a")], "yes")] :=
  ⟨⟨by simp, by simp⟩, id3_min_weighted_entropy _ _ (by simp) (by simp)⟩

/-! ### Claim C8: entropy of pure, uniform and empty distributions -/

theorem foldl_add_unique_absorb {α : Type} [DecidableEq α] (l : List α) (acc : List α)
    (h : ∀ y ∈ l, y ∈ acc) : l.foldl add_unique acc = acc := by
  induction l with
  | nil => rfl
  | cons x xs ih =>
    rw [List.foldl_cons]
    have hx : add_unique acc x = acc := by
      unfold add_unique
      rw [if_pos (h x (List.mem_cons_self x xs))]
    rw [hx]
    exact ih (fun y hy => h y (List.mem_cons.mpr (Or.inr hy)))

theorem py_set_const (items : List String) (l : String) (hne : items ≠ [])
    (hall : ∀ x ∈ items, x = l) : py_set items = [l] := by
  match items, hne with
  | x :: xs, _ =>
    have hx : x = l := hall x (List.mem_cons_self x xs)
    subst hx
    unfold py_set
    rw [List.foldl_cons]
    have h0 : add_unique [] x = [x] := rfl
    rw [h0]
    exact foldl_add_unique_absorb xs [x] (fun y hy => by
      rw [hall y (List.mem_cons.mpr (Or.inr hy))]
      exact List.mem_cons_self x [])

theorem freq_dist_const (items : List String) (l : String) (hne : items ≠ [])
    (hall : ∀ x ∈ items, x = l) : freq_dist items = [(l, 1)] := by
  unfold freq_dist
  rw [py_set_const items l hne hall]
  have hcount : items.count l = items.length :=
    List.count_eq_length.mpr (fun b hb => (hall b hb).symm)
  have hlen : (items.length : ℝ) ≠ 0 :=
    Nat.cast_ne_zero.mpr (fun h => hne (List.length_eq_zero.mp h))
  simp [hcount, div_self hlen]

/-- C8: the entropy of a single-label distribution is exactly 0; the
entropy of a distribution evenly split across `k` labels (each of the
`k` distinct items occurring exactly `m > 0` times) is exactly
`log2 k`; and the entropy of the empty filtered subset is 0, with no
division by zero occurring in `freq_dist []`. -/
theorem entropy_values :
    (∀ (items : List String) (l : String), items ≠ [] → (∀ x ∈ items, x = l) →
      entropy (freq_dist items) = 0) ∧
    (∀ (items : List String) (k m : Nat), 0 < m → (py_set items).length = k →
      (∀ l ∈ py_set items, items.count l = m) →
      entropy (freq_dist items) = Real.logb 2 (k : ℝ)) ∧
    entropy (freq_dist []) = 0 := by
  refine ⟨?_, ?_, ?_⟩
  · intro items l hne hall
    rw [freq_dist_const items l hne hall]
    simp [entropy, Real.logb_one]
  · intro items k m hm hk hcount
    rcases Nat.eq_zero_or_pos k with hk0 | hkpos
    · subst hk0
      have hnil : py_set items = [] := List.length_eq_zero.mp hk
      simp [entropy, freq_dist, hnil, Real.logb_zero]
    · have hklen : ((py_set items).map (fun x => items.count x)) = List.replicate k m := by
        rw [List.eq_replicate_iff]
        refine ⟨by rw [List.length_map, hk], ?_⟩
        intro b hb
        obtain ⟨x, hx, rfl⟩ := List.mem_map.mp hb
        exact hcount x hx
      have hlen : items.length = k * m := by
        have h1 := sum_count_py_set items
        rw [hklen, List.sum_replicate, smul_eq_mul] at h1
        omega
      have hmR : (m : ℝ) ≠ 0 := Nat.cast_ne_zero.mpr (Nat.pos_iff_ne_zero.mp hm)
      have hkR : (k : ℝ) ≠ 0 := Nat.cast_ne_zero.mpr (Nat.pos_iff_ne_zero.mp hkpos)
      have hprob : ∀ p ∈ freq_dist items, p.2 = 1 / (k : ℝ) := by
        intro p hp
        simp only [freq_dist] at hp
        obtain ⟨x, hx, rfl⟩ := List.mem_map.mp hp
        show ((items.count x : ℝ) / (items.length : ℝ)) = 1 / (k : ℝ)
        rw [hcount x hx, hlen]
        push_cast
        rw [mul_comm ((k : ℝ)) ((m : ℝ)), ← div_div, div_self hmR]
      have hmap : (freq_dist items).map (fun p => p.2 * Real.logb 2 p.2)
          = List.replicate k ((1 / (k : ℝ)) * Real.logb 2 (1 / (k : ℝ))) := by
        rw [List.eq_replicate_iff]
        constructor
        · rw [List.length_map]
          simp only [freq_dist]
          rw [List.length_map, hk]
        · intro b hb
          obtain ⟨p, hp, rfl⟩ := List.mem_map.mp hb
          rw [hprob p hp]
      simp only [entropy]
      rw [hmap, List.sum_replicate, nsmul_eq_mul, one_div, Real.logb_inv]
      field_simp
  · simp [entropy, freq_dist, py_set]

theorem entropy_values_witness :
    ((["x", "x"] : List String) ≠ [] ∧ (∀ y ∈ (["x", "x"] : List String), y = "x") ∧
      entropy (freq_dist ["x", "x"]) = 0) ∧
    (0 < 1 ∧ (py_set (["a", "b"] : List String)).length = 2 ∧
      (∀ l ∈ py_set (["a", "b"] : List String), (["a", "b"] : List String).count l = 1) ∧
      entropy (freq_dist ["a", "b"]) = Real.logb 2 ((2 : Nat) : ℝ)) :=
  ⟨⟨by simp, by decide, entropy_values.1 ["x", "x"] "x" (by simp) (by decide)⟩,
   by decide, by decide, by decide,
   entropy_values.2.1 ["a", "b"] 2 1 (by decide) (by decide) (by decide)⟩

/-! ### Reachability of nodes in a built tree

`ReachedData t D u Du` says: starting from node `t` whose build step
received the dataset `D`, the node `u` occurs in the tree and the
training examples reaching `u` (in the sense of the specification:
those of `D` whose values match every edge on the path) are exactly
`Du`. -/

inductive ReachedData : DTree → Dataset → DTree → Dataset → Prop where
  | refl (t : DTree) (D : Dataset) : ReachedData t D t D
  | step {t : DTree} {D : Dataset} {n : String}
      {es : List (String × String × Option DTree)} {Dm : Dataset}
      {v l : String} {c : DTree} :
      ReachedData t D (DTree.node n es) Dm →
      (v, l, some c) ∈ es →
      ReachedData t D c (Dm.filter (fun data => data.1.lookup n == some v))

theorem reached_data_subset {t : DTree} {D : Dataset} {u : DTree} {Du : Dataset}
    (h : ReachedData t D u Du) : Du ⊆ D := by
  induction h with
  | refl => exact fun a ha => ha
  | step _ _ ih => exact fun a ha => ih (List.mem_of_mem_filter ha)

theorem reached_data_trans {t : DTree} {D : Dataset} {m : DTree} {Dm : Dataset}
    {u : DTree} {Du : Dataset} (h1 : ReachedData t D m Dm)
    (h2 : ReachedData m Dm u Du) : ReachedData t D u Du := by
  induction h2 with
  | refl => exact h1
  | step hmid hedge ih => exact ReachedData.step ih hedge

/-! ### Decoding a successful build step -/

theorem build_tree_some {h : Heuristic} {labels : List String} {fuel : Nat}
    {fs : List Feature} {ds : Dataset} {root : DTree}
    (hb : build_tree h labels fuel fs ds = some root) :
    ∃ (fuel' : Nat) (feature : Feature), fuel = fuel' + 1 ∧
      h fs ds = some feature ∧ feature ∈ fs ∧ fs ≠ [] ∧ ds ≠ [] ∧
      root = DTree.node feature.name
        ((partition_dataset labels feature ds).map (fun p =>
          (p.1, p.2.label,
            if build_subtrees_flag labels feature ds then
              build_tree h labels fuel' (fs.erase feature) p.2.ds
            else none))) := by
  match fuel with
  | 0 => exact absurd hb (by simp [build_tree])
  | fuel' + 1 =>
    rw [build_tree] at hb
    by_cases hguard : fs.length = 0 ∨ ds.length = 0
    · rw [if_pos hguard] at hb
      exact absurd hb (by simp)
    · rw [if_neg hguard] at hb
      push_neg at hguard
      match hh : h fs ds with
      | none => rw [hh] at hb; exact absurd hb (by simp)
      | some feature =>
        rw [hh] at hb
        dsimp only at hb
        by_cases hmem : feature ∈ fs
        · rw [if_pos hmem] at hb
          refine ⟨fuel', feature, rfl, rfl, hmem, ?_, ?_, ?_⟩
          · exact fun hnil => hguard.1 (by rw [hnil]; rfl)
          · exact fun hnil => hguard.2 (by rw [hnil]; rfl)
          · exact (Option.some.injEq _ _ ▸ hb).symm
        · rw [if_neg hmem] at hb
          exact absurd hb (by simp)

/-- Decoding one edge of a node produced by a successful build step:
it comes from the bucket of its value, its label is the bucket's
majority label, and when it carries a destination that destination was
built by the recursive call on the bucket's dataset. -/
theorem build_tree_edge {h : Heuristic} {labels : List String} {fuel' : Nat}
    {fs : List Feature} {ds : Dataset} {feature : Feature}
    {v l : String} {d : Option DTree}
    (hedge : (v, l, d) ∈ (partition_dataset labels feature ds).map (fun p =>
      (p.1, p.2.label,
        if build_subtrees_flag labels feature ds then
          build_tree h labels fuel' (fs.erase feature) p.2.ds
        else none))) :
    v ∈ feature.values ∧
    l = majority_label labels (ds.filter (fun data => data.1.lookup feature.name == some v)) ∧
    (∀ c : DTree, d = some c →
      build_tree h labels fuel' (fs.erase feature)
        (ds.filter (fun data => data.1.lookup feature.name == some v)) = some c) := by
  obtain ⟨p, hp, heq⟩ := List.mem_map.mp hedge
  simp only [partition_dataset, List.mem_map] at hp
  obtain ⟨value, hvalue, rfl⟩ := hp
  obtain ⟨rfl, rfl, hd⟩ : value = v ∧
      (majority_label labels (ds.filter (fun data => data.1.lookup feature.name == some value))
        = l) ∧
      (if build_subtrees_flag labels feature ds then
          build_tree h labels fuel' (fs.erase feature)
            (ds.filter (fun data => data.1.lookup feature.name == some value))
        else none) = d := by
    have h1 := congrArg Prod.fst heq
    have h2 := congrArg (fun q => q.2.1) heq
    have h3 := congrArg (fun q => q.2.2) heq
    exact ⟨h1, h2, h3⟩
  refine ⟨hvalue, rfl, ?_⟩
  intro c hc
  rw [← hd] at hc
  by_cases hflag : build_subtrees_flag labels feature ds
  · rwa [if_pos hflag] at hc
  · rw [if_neg hflag] at hc
    exact absurd hc (by simp)

/-- Every node of a built tree was itself produced by a build step whose
feature list is a sublist of the original one and whose dataset is the
data reaching the node. -/
theorem reached_built {h : Heuristic} {labels : List String} {fuel : Nat}
    {fs : List Feature} {ds : Dataset} {t : DTree} {u : DTree} {Du : Dataset}
    (hb : build_tree h labels fuel fs ds = some t)
    (hr : ReachedData t ds u Du) :
    ∃ (fuel' : Nat) (fs' : List Feature), fs'.Sublist fs ∧
      build_tree h labels fuel' fs' Du = some u := by
  induction hr with
  | refl => exact ⟨fuel, fs, List.Sublist.refl fs, hb⟩
  | step hmid hedge ih =>
    rename_i n es Dm v l c
    obtain ⟨fuel1, fs1, hsub, hb1⟩ := ih
    obtain ⟨fuel2, feature, hfuel, hh, hmem, hfs, hds, hroot⟩ := build_tree_some hb1
    injection hroot with hn hes
    rw [hes] at hedge
    obtain ⟨hv, hl, hdest⟩ := build_tree_edge hedge
    subst hn
    exact ⟨fuel2, fs1.erase feature,
      (List.erase_sublist feature fs1).trans hsub, hdest c rfl⟩

/-- The features built by `_build_features` carry the value sets of the
whole dataset, and their names are pairwise distinct. -/
theorem build_features_spec {dataset : Dataset} {features : List Feature}
    (hf : build_features dataset = .ok features) :
    (∀ f ∈ features, f.values = build_values f.name dataset) ∧
    (features.map Feature.name).Nodup := by
  match dataset, hf with
  | first :: rest, hf =>
    have heq : features = (py_set (first.1.map Prod.fst)).map
        (fun nm => { name := nm, values := build_values nm (first :: rest) }) := by
      have := hf
      simp only [build_features, Except.ok.injEq] at this
      exact this.symm
    subst heq
    constructor
    · intro f hfmem
      obtain ⟨nm, _, rfl⟩ := List.mem_map.mp hfmem
      rfl
    · rw [List.map_map]
      have hid : (Feature.name ∘ fun nm =>
          ({ name := nm, values := build_values nm (first :: rest) } : Feature)) = id := rfl
      rw [hid, List.map_id]
      exact py_set_nodup _

/-- Decoding `train`: the trained state's components. -/
theorem train_ok {h : Heuristic} {dataset : Dataset} {labels : List String}
    {features : List Feature} {root : Option DTree}
    (ht : train h dataset = .ok (labels, features, root)) :
    labels = build_labels dataset ∧ build_features dataset = .ok features ∧
    build_tree h labels features.length features dataset = root ∧ dataset ≠ [] := by
  match dataset, ht with
  | [], ht =>
    exact absurd ht (by simp [train, build_features])
  | first :: rest, ht =>
    simp only [train, build_features, Except.ok.injEq, Prod.mk.injEq] at ht
    obtain ⟨h1, h2, h3⟩ := ht
    subst h1
    subst h2
    refine ⟨rfl, by simp [build_features], h3, by simp⟩

/-- The majority label over a non-empty label list is a member of that
list and maximizes `count_label` on the given dataset among the list's
labels. -/
theorem majority_label_spec (labels : List String) (val_dataset : Dataset)
    (hne : labels ≠ []) :
    majority_label labels val_dataset ∈ labels ∧
    ∀ lbl ∈ labels, count_label lbl val_dataset ≤
      count_label (majority_label labels val_dataset) val_dataset := by
  match labels, hne with
  | l0 :: ls, _ =>
    have heq : majority_label (l0 :: ls) val_dataset =
        (py_max (fun tup => tup.2) (l0, count_label l0 val_dataset)
          (ls.map (fun label => (label, count_label label val_dataset)))).1 := rfl
    have hmem := py_max_mem (fun tup : String × Nat => tup.2)
      (l0, count_label l0 val_dataset)
      (ls.map (fun label => (label, count_label label val_dataset)))
    have hcons : (l0, count_label l0 val_dataset) ::
        ls.map (fun label => (label, count_label label val_dataset)) =
        (l0 :: ls).map (fun label => (label, count_label label val_dataset)) := rfl
    rw [hcons] at hmem
    obtain ⟨lbl0, hlbl0, hbest⟩ := List.mem_map.mp hmem
    constructor
    · rw [heq, ← hbest]
      exact hlbl0
    · intro lbl hlbl
      have hge := py_max_ge (fun tup : String × Nat => tup.2)
        (l0, count_label l0 val_dataset)
        (ls.map (fun label => (label, count_label label val_dataset)))
        (lbl, count_label lbl val_dataset)
        (by rw [hcons]; exact List.mem_map_of_mem _ hlbl)
      rw [heq, ← hbest]
      have hsnd : (py_max (fun tup : String × Nat => tup.2)
          (l0, count_label l0 val_dataset)
          (ls.map (fun label => (label, count_label label val_dataset)))).2 =
          count_label lbl0 val_dataset := by rw [← hbest]
      calc count_label lbl val_dataset
          ≤ (py_max (fun tup : String × Nat => tup.2)
              (l0, count_label l0 val_dataset)
              (ls.map (fun label => (label, count_label label val_dataset)))).2 := hge
        _ = count_label lbl0 val_dataset := hsnd

/-- A positive label count exhibits an entry with that label. -/
theorem count_label_pos {lbl : String} {ds : Dataset}
    (hpos : 0 < count_label lbl ds) : ∃ data ∈ ds, data.2 = lbl := by
  unfold count_label at hpos
  match hm : ds.filter (fun data => data.2 == lbl) with
  | [] => rw [hm] at hpos; simp at hpos
  | d :: rest =>
    have hd : d ∈ ds.filter (fun data => data.2 == lbl) := by
      rw [hm]; exact List.mem_cons_self d rest
    exact ⟨d, List.mem_of_mem_filter hd,
      by simpa using List.of_mem_filter hd⟩

/-- Every entry of the dataset has its label in the global label set. -/
theorem label_mem_build_labels {data : DataEntry} {dataset : Dataset}
    (h : data ∈ dataset) : data.2 ∈ build_labels dataset := by
  unfold build_labels
  rw [py_set_mem]
  exact List.mem_map_of_mem (fun data => data.2) h

/-- On a non-empty dataset the global label set is non-empty. -/
theorem build_labels_ne_nil {dataset : Dataset} (h : dataset ≠ []) :
    build_labels dataset ≠ [] := by
  unfold build_labels
  exact py_set_ne_nil _ (by
    intro hnil
    exact h (List.map_eq_nil_iff.mp hnil))

/-- In a feature list with pairwise distinct names, the name of an
erased feature does not occur among the remaining features' names. -/
theorem name_not_mem_erase {fs : List Feature} {f : Feature}
    (hnodup : (fs.map Feature.name).Nodup) (hf : f ∈ fs) :
    f.name ∉ (fs.erase f).map Feature.name := by
  intro hmem
  obtain ⟨g, hg, hgname⟩ := List.mem_map.mp hmem
  have hgfs : g ∈ fs := (fs.erase_sublist f).subset hg
  have hgf : g = f := List.inj_on_of_nodup_map hnodup hgfs hf hgname
  subst hgf
  have hfs_nodup : fs.Nodup := hnodup.of_map
  exact (((List.Nodup.mem_erase_iff hfs_nodup).mp hg).1) rfl

/-! ### Single-step evaluation lemmas for `classify` -/

theorem classify_missing {data : FMap} {n : String} {es : List (String × String × Option DTree)}
    (hdata : data.lookup n = none) :
    classify (DTree.node n es) data = .error .keyError := by
  rw [classify]; simp only [hdata]

theorem classify_no_edge {data : FMap} {n : String} {es : List (String × String × Option DTree)}
    {v : String} (hdata : data.lookup n = some v) (hlk : es.lookup v = none) :
    classify (DTree.node n es) data = .ok none := by
  rw [classify]; simp only [hdata]
  split <;> simp_all

theorem classify_leaf_edge {data : FMap} {n : String} {es : List (String × String × Option DTree)}
    {v l : String} (hdata : data.lookup n = some v) (hlk : es.lookup v = some (l, none)) :
    classify (DTree.node n es) data = .ok (some l) := by
  rw [classify]; simp only [hdata]
  split <;> simp_all

theorem classify_step {data : FMap} {n : String} {es : List (String × String × Option DTree)}
    {v l : String} {c : DTree}
    (hdata : data.lookup n = some v) (hlk : es.lookup v = some (l, some c)) :
    classify (DTree.node n es) data = classify c data := by
  rw [classify]; simp only [hdata]
  split <;> simp_all

/-- The traversal relation of `classify`'s while loop on a fixed query
`data`: `TraceReaches data t u` holds when the loop started at `t`
reaches `u` by repeatedly following the edge for the observed value of
the current node's feature. -/
inductive TraceReaches (data : FMap) : DTree → DTree → Prop where
  | refl (t : DTree) : TraceReaches data t t
  | step {n : String} {es : List (String × String × Option DTree)} {v l : String}
      {c u : DTree} :
      data.lookup n = some v →
      es.lookup v = some (l, some c) →
      TraceReaches data c u →
      TraceReaches data (DTree.node n es) u

theorem classify_congr {data : FMap} {t u : DTree} (h : TraceReaches data t u) :
    classify t data = classify u data := by
  induction h with
  | refl => rfl
  | step hdata hlk _ ih => rw [classify_step hdata hlk]; exact ih

/-- A node reached by the classify traversal is reached in the build
sense, for every dataset the traversal is run against. -/
theorem trace_reached {data : FMap} {t u : DTree} (h : TraceReaches data t u) :
    ∀ D : Dataset, ∃ Du, ReachedData t D u Du := by
  induction h with
  | refl t => exact fun D => ⟨D, ReachedData.refl t D⟩
  | @step n es v l c u hdata hlk _ ih =>
    intro D
    have hmem : (v, (l, some c)) ∈ es := by
      obtain ⟨l₁, l₂, rfl, -⟩ := List.lookup_eq_some_iff.mp hlk
      exact List.mem_append.mpr (Or.inr (List.mem_cons_self _ _))
    have h1 : ReachedData (DTree.node n es) D c
        (D.filter (fun data => data.1.lookup n == some v)) :=
      ReachedData.step (ReachedData.refl (DTree.node n es) D) hmem
    obtain ⟨Du, h2⟩ := ih (D.filter (fun data => data.1.lookup n == some v))
    exact ⟨Du, reached_data_trans h1 h2⟩

/-! ### The shape of every reached node of a trained tree -/

/-- Every node of a trained tree carries exactly one edge per value of
the global value set of its feature name, computed from the entire
original training dataset. -/
theorem reached_node_edges {h : Heuristic} {dataset : Dataset} {labels : List String}
    {features : List Feature} {root : DTree} {u : DTree} {Du : Dataset}
    (ht : train h dataset = .ok (labels, features, some root))
    (hr : ReachedData root dataset u Du) :
    u.edges.map Prod.fst = build_values u.name dataset ∧
    u.name ∈ features.map Feature.name := by
  obtain ⟨hlab, hfeat, hroot, hne⟩ := train_ok ht
  obtain ⟨fuel1, fs1, hsub, hb⟩ := reached_built hroot hr
  obtain ⟨fuel2, feature, _, hh, hmem, _, _, hshape⟩ := build_tree_some hb
  have hmem0 : feature ∈ features := hsub.subset hmem
  have hval : feature.values = build_values feature.name dataset :=
    (build_features_spec hfeat).1 feature hmem0
  subst hshape
  refine ⟨?_, ?_⟩
  · simp only [DTree.edges, DTree.name, List.map_map, partition_dataset]
    rw [← hval]
    exact List.map_id'' (fun value => rfl) feature.values
  · simp only [DTree.name]
    exact List.mem_map_of_mem Feature.name hmem0

/-- Every edge of a reached node of a trained tree comes from the
bucket of its value: its value is in the node's global value set and
its label is the majority label over the global label set of the
reaching examples taking that value. -/
theorem reached_edge_decode {h : Heuristic} {dataset : Dataset} {labels : List String}
    {features : List Feature} {root : DTree} {u : DTree} {Du : Dataset}
    (ht : train h dataset = .ok (labels, features, some root))
    (hr : ReachedData root dataset u Du)
    {v l : String} {d : Option DTree} (hedge : (v, l, d) ∈ u.edges) :
    v ∈ build_values u.name dataset ∧
    l = majority_label (build_labels dataset)
      (Du.filter (fun data => data.1.lookup u.name == some v)) := by
  obtain ⟨hlab, hfeat, hroot, hne⟩ := train_ok ht
  obtain ⟨fuel1, fs1, hsub, hb⟩ := reached_built hroot hr
  obtain ⟨fuel2, feature, _, hh, hmem, _, _, hshape⟩ := build_tree_some hb
  have hmem0 : feature ∈ features := hsub.subset hmem
  have hval : feature.values = build_values feature.name dataset :=
    (build_features_spec hfeat).1 feature hmem0
  subst hshape
  simp only [DTree.edges] at hedge
  obtain ⟨hv, hl, -⟩ := build_tree_edge hedge
  subst hlab
  refine ⟨?_, ?_⟩
  · simp only [DTree.name]
    rw [← hval]
    exact hv
  · simp only [DTree.name]
    exact hl

/-- A trivially computable heuristic (always the first candidate); the
`DecisionTree` constructor accepts any heuristic, `id3` being only the
default. -/
def first_feature : Heuristic := fun fs _ => fs.head?

/-! ### Claim C7: one edge per globally-derived feature value -/

/-- C7: every node of a tree trained on a non-empty dataset has exactly
one edge per value of its feature's value set, and that value set is
`build_values` of the node's feature name over the entire original
training dataset — never recomputed from the shrinking partition. -/
theorem node_edges_are_global_values {h : Heuristic} {dataset : Dataset}
    {labels : List String} {features : List Feature} {root : DTree}
    {u : DTree} {Du : Dataset}
    (ht : train h dataset = .ok (labels, features, some root))
    (hr : ReachedData root dataset u Du) :
    u.edges.map Prod.fst = build_values u.name dataset :=
  (reached_node_edges ht hr).1

theorem node_edges_are_global_values_witness :
    (train first_feature [([("x", "a")], "yes"), ([("x", "b")], "no")] =
      .ok (["yes", "no"], [⟨"x", ["a", "b"]⟩],
        some (DTree.node "x" [("a", "yes", none), ("b", "no", none)]))) ∧
    (DTree.node "x" [("a", "yes", none), ("b", "no", none)]).edges.map Prod.fst =
      build_values (DTree.node "x" [("a", "yes", none), ("b", "no", none)]).name
        [([("x", "a")], "yes"), ([("x", "b")], "no")] := by
  have ht : train first_feature [([("x", "a")], "yes"), ([("x", "b")], "no")] =
      .ok (["yes", "no"], [⟨"x", ["a", "b"]⟩],
        some (DTree.node "x" [("a", "yes", none), ("b", "no", none)])) := rfl
  exact ⟨ht, node_edges_are_global_values ht (ReachedData.refl _ _)⟩

/-! ### Claim C9: no feature repeats along a path -/

/-- C9: in a trained tree, any node reached below an edge of a node
deciding on feature name `n` decides on a different feature name, so no
root-to-leaf path traverses the same feature twice. -/
theorem no_feature_repeats {h : Heuristic} {dataset : Dataset}
    {labels : List String} {features : List Feature} {root : DTree}
    {t : DTree} {Dt : Dataset}
    (ht : train h dataset = .ok (labels, features, some root))
    (hrt : ReachedData root dataset t Dt)
    {n : String} {es : List (String × String × Option DTree)}
    (hteq : t = DTree.node n es)
    {v l : String} {c : DTree} (hedge : (v, l, some c) ∈ es)
    {u : DTree} {Du : Dataset}
    (hru : ReachedData c (Dt.filter (fun data => data.1.lookup n == some v)) u Du) :
    u.name ≠ n := by
  obtain ⟨hlab, hfeat, hroot, hne⟩ := train_ok ht
  obtain ⟨fuel1, fs1, hsub1, hb1⟩ := reached_built hroot hrt
  subst hteq
  obtain ⟨fuel2, feature, -, hh, hmem, -, -, hshape⟩ := build_tree_some hb1
  injection hshape with hn hes
  subst hn
  rw [hes] at hedge
  obtain ⟨hv, hl, hdest⟩ := build_tree_edge hedge
  have hc := hdest c rfl
  obtain ⟨fuel3, fs3, hsub3, hb3⟩ := reached_built hc hru
  obtain ⟨fuel4, g, -, -, hgmem, -, -, hushape⟩ := build_tree_some hb3
  have hgmem1 : g ∈ fs1.erase feature := hsub3.subset hgmem
  have hnodup1 : (fs1.map Feature.name).Nodup :=
    List.Nodup.sublist (hsub1.map Feature.name) (build_features_spec hfeat).2
  intro hcontra
  rw [hushape] at hcontra
  simp only [DTree.name] at hcontra
  exact name_not_mem_erase hnodup1 hmem
    (hcontra ▸ List.mem_map_of_mem Feature.name hgmem1)

theorem no_feature_repeats_witness :
    (train first_feature
        [([("a", "0"), ("b", "0")], "x"), ([("a", "0"), ("b", "1")], "x"),
         ([("a", "1"), ("b", "0")], "y")] =
      .ok (["x", "y"], [⟨"a", ["0", "1"]⟩, ⟨"b", ["0", "1"]⟩],
        some (DTree.node "a"
          [("0", "x", some (DTree.node "b" [("0", "x", none), ("1", "x", none)])),
           ("1", "y", some (DTree.node "b" [("0", "y", none), ("1", "x", none)]))]))) ∧
    (DTree.node "b" [("0", "x", none), ("1", "x", none)]).name ≠ "a" := by
  have ht : train first_feature
      [([("a", "0"), ("b", "0")], "x"), ([("a", "0"), ("b", "1")], "x"),
       ([("a", "1"), ("b", "0")], "y")] =
      .ok (["x", "y"], [⟨"a", ["0", "1"]⟩, ⟨"b", ["0", "1"]⟩],
        some (DTree.node "a"
          [("0", "x", some (DTree.node "b" [("0", "x", none), ("1", "x", none)])),
           ("1", "y", some (DTree.node "b" [("0", "y", none), ("1", "x", none)]))])) := rfl
  exact ⟨ht, no_feature_repeats ht (ReachedData.refl _ _) rfl
    (List.mem_cons_self _ _) (ReachedData.refl _ _)⟩

/-! ### Claim C10: edge labels come from the global label set -/

/-- C10: every edge of a trained tree carries a label belonging to the
global label set of the full training dataset, including edges for
values whose bucket of training examples is empty. -/
theorem edge_labels_in_global_labels {h : Heuristic} {dataset : Dataset}
    {labels : List String} {features : List Feature} {root : DTree}
    {u : DTree} {Du : Dataset}
    (ht : train h dataset = .ok (labels, features, some root))
    (hr : ReachedData root dataset u Du)
    {v l : String} {d : Option DTree} (hedge : (v, l, d) ∈ u.edges) :
    l ∈ build_labels dataset := by
  obtain ⟨-, hl⟩ := reached_edge_decode ht hr hedge
  have hne : dataset ≠ [] := (train_ok ht).2.2.2
  rw [hl]
  exact (majority_label_spec _ _ (build_labels_ne_nil hne)).1

theorem edge_labels_in_global_labels_witness :
    (train first_feature
        [([("a", "0"), ("b", "0")], "x"), ([("a", "0"), ("b", "1")], "x"),
         ([("a", "1"), ("b", "0")], "y")] =
      .ok (["x", "y"], [⟨"a", ["0", "1"]⟩, ⟨"b", ["0", "1"]⟩],
        some (DTree.node "a"
          [("0", "x", some (DTree.node "b" [("0", "x", none), ("1", "x", none)])),
           ("1", "y", some (DTree.node "b" [("0", "y", none), ("1", "x", none)]))]))) ∧
    ("1", "x", (none : Option DTree)) ∈
      (DTree.node "b" [("0", "y", none), ("1", "x", none)]).edges ∧
    "x" ∈ build_labels
      [([("a", "0"), ("b", "0")], "x"), ([("a", "0"), ("b", "1")], "x"),
       ([("a", "1"), ("b", "0")], "y")] :=
  by
  have ht : train first_feature
      [([("a", "0"), ("b", "0")], "x"), ([("a", "0"), ("b", "1")], "x"),
       ([("a", "1"), ("b", "0")], "y")] =
      .ok (["x", "y"], [⟨"a", ["0", "1"]⟩, ⟨"b", ["0", "1"]⟩],
        some (DTree.node "a"
          [("0", "x", some (DTree.node "b" [("0", "x", none), ("1", "x", none)])),
           ("1", "y", some (DTree.node "b" [("0", "y", none), ("1", "x", none)]))])) := rfl
  exact ⟨ht, List.mem_cons.mpr (Or.inr (List.mem_cons_self _ _)),
    edge_labels_in_global_labels ht
      (ReachedData.step (ReachedData.refl _ _)
        (List.mem_cons.mpr (Or.inr (List.mem_cons_self _ _))))
      (List.mem_cons.mpr (Or.inr (List.mem_cons_self _ _)))⟩

/-! ### Claim C3: edge labels are modes of the reaching examples -/

/-- C3: for every node of a trained tree and every edge `(v, l, _)` of
it, `l` is a mode of the labels of the training examples reaching that
node whose value for the node's feature is `v`: `l` is a global label,
its count in that bucket is maximal among all global labels, and no
label outside the global set occurs in the bucket.  The embedding is a
pure function of its input, so the choice (first maximal label in the
fixed label order, per Python `max`) is deterministic on identical
input. -/
theorem edge_label_is_mode {h : Heuristic} {dataset : Dataset}
    {labels : List String} {features : List Feature} {root : DTree}
    {u : DTree} {Du : Dataset}
    (ht : train h dataset = .ok (labels, features, some root))
    (hr : ReachedData root dataset u Du)
    {v l : String} {d : Option DTree} (hedge : (v, l, d) ∈ u.edges) :
    l ∈ build_labels dataset ∧
    (∀ lbl ∈ build_labels dataset,
      count_label lbl (Du.filter (fun data => data.1.lookup u.name == some v)) ≤
        count_label l (Du.filter (fun data => data.1.lookup u.name == some v))) ∧
    (∀ lbl : String, lbl ∉ build_labels dataset →
      count_label lbl (Du.filter (fun data => data.1.lookup u.name == some v)) = 0) := by
  obtain ⟨-, hl⟩ := reached_edge_decode ht hr hedge
  have hne : dataset ≠ [] := (train_ok ht).2.2.2
  have hspec := majority_label_spec (build_labels dataset)
    (Du.filter (fun data => data.1.lookup u.name == some v)) (build_labels_ne_nil hne)
  refine ⟨?_, ?_, ?_⟩
  · rw [hl]; exact hspec.1
  · intro lbl hlbl
    rw [hl]
    exact hspec.2 lbl hlbl
  · intro lbl hlbl
    by_contra hcount
    obtain ⟨data, hdata, hdlbl⟩ := count_label_pos (Nat.pos_of_ne_zero hcount)
    exact hlbl (hdlbl ▸ label_mem_build_labels
      (reached_data_subset hr (List.mem_of_mem_filter hdata)))

theorem edge_label_is_mode_witness :
    (train first_feature [([("x", "a")], "yes"), ([("x", "b")], "no")] =
      .ok (["yes", "no"], [⟨"x", ["a", "b"]⟩],
        some (DTree.node "x" [("a", "yes", none), ("b", "no", none)]))) ∧
    ("a", "yes", (none : Option DTree)) ∈
      (DTree.node "x" [("a", "yes", none), ("b", "no", none)]).edges ∧
    ("yes" ∈ build_labels [([("x", "a")], "yes"), ([("x", "b")], "no")] ∧
     (∀ lbl ∈ build_labels [([("x", "a")], "yes"), ([("x", "b")], "no")],
       count_label lbl ([([("x", "a")], "yes"), ([("x", "b")], "no")].filter
         (fun data => data.1.lookup
           (DTree.node "x" [("a", "yes", none), ("b", "no", none)]).name == some "a")) ≤
         count_label "yes" ([([("x", "a")], "yes"), ([("x", "b")], "no")].filter
           (fun data => data.1.lookup
             (DTree.node "x" [("a", "yes", none), ("b", "no", none)]).name == some "a"))) ∧
     (∀ lbl : String, lbl ∉ build_labels [([("x", "a")], "yes"), ([("x", "b")], "no")] →
       count_label lbl ([([("x", "a")], "yes"), ([("x", "b")], "no")].filter
         (fun data => data.1.lookup
           (DTree.node "x" [("a", "yes", none), ("b", "no", none)]).name == some "a")) = 0)) :=
  by
  have ht : train first_feature [([("x", "a")], "yes"), ([("x", "b")], "no")] =
      .ok (["yes", "no"], [⟨"x", ["a", "b"]⟩],
        some (DTree.node "x" [("a", "yes", none), ("b", "no", none)])) := rfl
  exact ⟨ht, List.mem_cons_self _ _,
    edge_label_is_mode ht (ReachedData.refl _ _) (List.mem_cons_self _ _)⟩

/-! ### Claim C4: unseen feature values are unclassifiable -/

/-- C4: if the classify traversal of a trained tree reaches a node and
the query's value for that node's feature was never observed during
training (it is not in the global value set, so the node has no edge
for it), then `classify` returns the explicit unclassifiable result
`Except.ok none`, which differs from `Except.ok (some lbl)` for every
label `lbl`. -/
theorem classify_unseen_value_unclassifiable {h : Heuristic} {dataset : Dataset}
    {labels : List String} {features : List Feature} {root : DTree}
    (ht : train h dataset = .ok (labels, features, some root))
    {data : FMap} {u : DTree} (hr : TraceReaches data root u)
    {n : String} {es : List (String × String × Option DTree)}
    (hu : u = DTree.node n es)
    {v : String} (hv : data.lookup n = some v)
    (hunseen : v ∉ build_values n dataset) :
    classify root data = .ok none ∧
    ∀ lbl : String, (Except.ok (some lbl) : Except PyError (Option String)) ≠ .ok none := by
  subst hu
  obtain ⟨Du, hrD⟩ := trace_reached hr dataset
  have hedges := (reached_node_edges ht hrD).1
  simp only [DTree.edges, DTree.name] at hedges
  have hnoedge : es.lookup v = none := by
    rw [List.lookup_eq_none_iff]
    intro p hp
    simp only [bne_iff_ne, ne_eq]
    intro heq
    exact hunseen (heq ▸ (hedges ▸ List.mem_map_of_mem Prod.fst hp))
  rw [classify_congr hr, classify_no_edge hv hnoedge]
  exact ⟨rfl, fun lbl => by simp⟩

theorem classify_unseen_value_unclassifiable_witness :
    (train first_feature [([("x", "a")], "yes"), ([("x", "b")], "no")] =
      .ok (["yes", "no"], [⟨"x", ["a", "b"]⟩],
        some (DTree.node "x" [("a", "yes", none), ("b", "no", none)]))) ∧
    ([("x", "c")] : FMap).lookup "x" = some "c" ∧
    "c" ∉ build_values "x" [([("x", "a")], "yes"), ([("x", "b")], "no")] ∧
    (classify (DTree.node "x" [("a", "yes", none), ("b", "no", none)]) [("x", "c")] =
        .ok none ∧
      ∀ lbl : String, (Except.ok (some lbl) : Except PyError (Option String)) ≠ .ok none) := by
  have ht : train first_feature [([("x", "a")], "yes"), ([("x", "b")], "no")] =
      .ok (["yes", "no"], [⟨"x", ["a", "b"]⟩],
        some (DTree.node "x" [("a", "yes", none), ("b", "no", none)])) := rfl
  exact ⟨ht, rfl, by decide,
    classify_unseen_value_unclassifiable ht (TraceReaches.refl _) rfl rfl (by decide)⟩

/-! ### Claim C5: queries missing a feature raise KeyError (refuting
the claimed unclassifiable outcome) -/

/-- C5 is refuted at a concrete input: on the tree trained (with the
default `id3` heuristic) from a two-example dataset over the single
feature `x`, classifying a query whose mapping lacks `x` raises
`KeyError` — it does not return the unclassifiable outcome
`Except.ok none`. -/
theorem classify_missing_feature_counterexample :
    train id3 [([("x", "a")], "yes"), ([("x", "b")], "no")] =
      .ok (["yes", "no"], [⟨"x", ["a", "b"]⟩],
        some (DTree.node "x" [("a", "yes", none), ("b", "no", none)])) ∧
    dt_classify (some (DTree.node "x" [("a", "yes", none), ("b", "no", none)]))
      [("y", "a")] = .error .keyError ∧
    (Except.error PyError.keyError : Except PyError (Option String)) ≠ .ok none :=
  ⟨rfl, classify_missing rfl, by simp⟩

/-- C5 (amended): if the classify traversal of a trained tree reaches a
node for whose feature the query mapping holds no value, `classify`
raises `KeyError` (the embedded `data[node.name]` lookup failure)
rather than returning the unclassifiable outcome. -/
theorem classify_missing_feature_raises {h : Heuristic} {dataset : Dataset}
    {labels : List String} {features : List Feature} {root : DTree}
    (_ht : train h dataset = .ok (labels, features, some root))
    {data : FMap} {u : DTree} (hr : TraceReaches data root u)
    {n : String} {es : List (String × String × Option DTree)}
    (hu : u = DTree.node n es)
    (hmiss : data.lookup n = none) :
    classify root data = .error .keyError := by
  subst hu
  rw [classify_congr hr]
  exact classify_missing hmiss

theorem classify_missing_feature_raises_witness :
    (train first_feature [([("x", "a")], "yes"), ([("x", "b")], "no")] =
      .ok (["yes", "no"], [⟨"x", ["a", "b"]⟩],
        some (DTree.node "x" [("a", "yes", none), ("b", "no", none)]))) ∧
    ([("y", "a")] : FMap).lookup "x" = none ∧
    classify (DTree.node "x" [("a", "yes", none), ("b", "no", none)]) [("y", "a")] =
      .error .keyError := by
  have ht : train first_feature [([("x", "a")], "yes"), ([("x", "b")], "no")] =
      .ok (["yes", "no"], [⟨"x", ["a", "b"]⟩],
        some (DTree.node "x" [("a", "yes", none), ("b", "no", none)])) := rfl
  exact ⟨ht, rfl,
    classify_missing_feature_raises ht (TraceReaches.refl _) rfl rfl⟩

/-! ### Claim C2: the degenerate-split guard is broken in the code -/

/-- C2 describes the intended degenerate-split guard, but the code
computes `len(partition[value])` — the size of the two-key bucket dict,
always `2` — instead of the bucket dataset's size, so `build_subtrees`
is true whenever the feature has more than one value.  Concretely: in
the dataset below, the build step receiving features `[b, c]` and the
partition `[e1, e2]` (the two entries with `a = "0"`) splits on `b`
whose buckets are `[e1, e2]` (for `"0"`) and empty (for `"1"`): exactly
one non-empty bucket, so per the claim no edge may get a destination —
yet the coded guard evaluates to true and the edge for `"0"` receives
the destination node on `c`. -/
theorem degenerate_split_guard_broken :
    train first_feature
      [([("a", "0"), ("b", "0"), ("c", "0")], "x"),
       ([("a", "0"), ("b", "0"), ("c", "1")], "x"),
       ([("a", "1"), ("b", "1"), ("c", "0")], "y")] =
      .ok (["x", "y"], [⟨"a", ["0", "1"]⟩, ⟨"b", ["0", "1"]⟩, ⟨"c", ["0", "1"]⟩],
        some (DTree.node "a"
          [("0", "x", some (DTree.node "b"
              [("0", "x", some (DTree.node "c" [("0", "x", none), ("1", "x", none)])),
               ("1", "x", none)])),
           ("1", "y", some (DTree.node "b"
              [("0", "x", none),
               ("1", "y", some (DTree.node "c" [("0", "y", none), ("1", "x", none)]))]))])) ∧
    (partition_dataset ["x", "y"] ⟨"b", ["0", "1"]⟩
      [([("a", "0"), ("b", "0"), ("c", "0")], "x"),
       ([("a", "0"), ("b", "0"), ("c", "1")], "x")]).countP
      (fun p => !p.2.ds.isEmpty) = 1 ∧
    build_subtrees_flag ["x", "y"] ⟨"b", ["0", "1"]⟩
      [([("a", "0"), ("b", "0"), ("c", "0")], "x"),
       ([("a", "0"), ("b", "0"), ("c", "1")], "x")] ∧
    build_tree first_feature ["x", "y"] 2 [⟨"b", ["0", "1"]⟩, ⟨"c", ["0", "1"]⟩]
      [([("a", "0"), ("b", "0"), ("c", "0")], "x"),
       ([("a", "0"), ("b", "0"), ("c", "1")], "x")] =
      some (DTree.node "b"
        [("0", "x", some (DTree.node "c" [("0", "x", none), ("1", "x", none)])),
         ("1", "x", none)]) :=
  ⟨rfl, rfl, by decide, rfl⟩

/-! ### Claim C6: empty datasets raise errors -/

/-- C6: `train` on the empty dataset fails with `IndexError` (Python's
`dataset[0]` in `_build_features`), and `evaluate` on the empty dataset
fails with `ZeroDivisionError` (the division by `len(dataset)`); both
return errors, not values such as `(0, 0)`. -/
theorem empty_dataset_raises :
    (∀ h : Heuristic, train h [] = .error .indexError) ∧
    (∀ root : Option DTree, evaluate root [] = .error .zeroDivisionError) :=
  ⟨fun _ => rfl, fun _ => rfl⟩
